import Mathlib

/-!
Verification of the lucal rendering engine against its specification.

This file shallowly embeds the Go sources of the lucal repository:

* `internal/textwidth` (StringWidth, PadRight, lineWidth, stripANSI,
  fallbackWidth) — the width-measurement model;
* `internal/render/render.go` (applyColors, Layout, determineColumnWidth,
  renderGregorianCell, renderLunarCell, the highlight collection of
  buildMonthBlock) — grid sizing, block composition and the color overlay;
* `internal/calendar` (Service.Month, buildDay, the supported year range).

Strings are modelled as `List Char` (`Str`); Go's `strings.Split(s, "\n")`,
`strings.Join`, regexp scans and byte-length computations are translated into
executable structural recursions, with an explicit fuel argument standing in
for well-founded recursion where the Go code loops while consuming input
(fuel is always instantiated with a provably sufficient bound, and all
lemmas carry the `length ≤ fuel` hypothesis under which the fuel never runs
out, so the fuel branch is unreachable in every statement proved here).
-/

set_option maxRecDepth 2000

namespace Lucal

/-- Strings are modelled as lists of characters. -/
abbrev Str := List Char

/-- The escape character 0x1b that introduces a terminal control sequence. -/
def escChar : Char := Char.ofNat 27

/-! ## Splitting on line breaks and joining

`strings.Split(s, "\n")` and `strings.Join(lines, "\n")` from the Go
standard library, specialised to the one-character separator used by the
repository. -/

/-- Go `strings.Split(s, "\n")`: cut the string at every newline; the result
always has at least one (possibly empty) piece. -/
def splitNL : Str → List Str
  | [] => [[]]
  | c :: t =>
    if c = '\n' then [] :: splitNL t
    else
      match splitNL t with
      | [] => [[c]]
      | l :: ls => (c :: l) :: ls

/-- Go `strings.Join(lines, "\n")`. -/
def joinNL : List Str → Str
  | [] => []
  | [l] => l
  | l :: ls => l ++ '\n' :: joinNL ls

theorem splitNL_ne_nil (s : Str) : splitNL s ≠ [] := by
  induction s with
  | nil => simp [splitNL]
  | cons c t ih =>
    simp only [splitNL]
    split
    · simp
    · cases h : splitNL t with
      | nil => simp
      | cons l ls => simp

/-- Every character of every piece of `splitNL s` is a character of `s`. -/
theorem mem_of_mem_splitNL {s : Str} {l : Str} (hl : l ∈ splitNL s) {c : Char}
    (hc : c ∈ l) : c ∈ s := by
  induction s generalizing l with
  | nil =>
    simp only [splitNL, List.mem_singleton] at hl
    subst hl
    simp at hc
  | cons d t ih =>
    simp only [splitNL] at hl
    by_cases hd : d = '\n'
    · rw [if_pos hd] at hl
      rcases List.mem_cons.mp hl with h | h
      · subst h; simp at hc
      · exact List.mem_cons_of_mem _ (ih h hc)
    · rw [if_neg hd] at hl
      cases h : splitNL t with
      | nil => exact absurd h (splitNL_ne_nil t)
      | cons p ps =>
        rw [h] at hl
        rcases List.mem_cons.mp hl with h1 | h1
        · subst h1
          rcases List.mem_cons.mp hc with h2 | h2
          · exact h2 ▸ List.mem_cons_self _ _
          · exact List.mem_cons_of_mem _ (ih (h ▸ List.mem_cons_self p ps) h2)
        · exact List.mem_cons_of_mem _ (ih (h ▸ List.mem_cons_of_mem p h1) hc)

/-- No piece produced by `splitNL` contains a newline. -/
theorem splitNL_no_newline {s : Str} {l : Str} (hl : l ∈ splitNL s) :
    '\n' ∉ l := by
  induction s generalizing l with
  | nil =>
    simp only [splitNL, List.mem_singleton] at hl
    subst hl; simp
  | cons d t ih =>
    simp only [splitNL] at hl
    by_cases hd : d = '\n'
    · rw [if_pos hd] at hl
      rcases List.mem_cons.mp hl with h | h
      · subst h; simp
      · exact ih h
    · rw [if_neg hd] at hl
      cases h : splitNL t with
      | nil => exact absurd h (splitNL_ne_nil t)
      | cons p ps =>
        rw [h] at hl
        rcases List.mem_cons.mp hl with h1 | h1
        · subst h1
          intro hmem
          rcases List.mem_cons.mp hmem with h2 | h2
          · exact hd h2.symm
          · exact ih (h ▸ List.mem_cons_self p ps) h2
        · exact ih (h ▸ List.mem_cons_of_mem p h1)

theorem joinNL_splitNL (s : Str) : joinNL (splitNL s) = s := by
  induction s with
  | nil => simp [splitNL, joinNL]
  | cons c t ih =>
    simp only [splitNL]
    by_cases hc : c = '\n'
    · subst hc
      simp only [if_pos rfl]
      cases h : splitNL t with
      | nil => exact absurd h (splitNL_ne_nil t)
      | cons l ls =>
        rw [h] at ih
        cases ls with
        | nil => simp [joinNL] at ih ⊢; exact ih
        | cons l2 ls2 => simp [joinNL] at ih ⊢; exact ih
    · simp only [if_neg hc]
      cases h : splitNL t with
      | nil => exact absurd h (splitNL_ne_nil t)
      | cons l ls =>
        rw [h] at ih
        cases ls with
        | nil => simpa [joinNL] using congrArg (c :: ·) ih
        | cons l2 ls2 =>
          simp only [joinNL] at ih ⊢
          simpa using congrArg (c :: ·) ih

/-- Splitting a string with no newline yields the single-piece list. -/
theorem splitNL_eq_single {s : Str} (h : '\n' ∉ s) : splitNL s = [s] := by
  induction s with
  | nil => simp [splitNL]
  | cons c t ih =>
    simp only [splitNL]
    have hc : ¬ c = '\n' := fun hc => h (hc ▸ List.mem_cons_self c t)
    rw [if_neg hc, ih (fun hm => h (List.mem_cons_of_mem c hm))]

/-! ## The ANSI control-sequence scanner

`internal/textwidth` strips every match of the regular expression
`\x1b\[[0-9;]*m` before measuring (`var ansiRegexp`, `stripANSI`). The
regexp is embedded as a deterministic left-to-right scanner: at each
position a match is an escape, a bracket, a maximal run of digits and
semicolons, and a terminating `m`. -/

/-- Character class `[0-9;]` of the body of a color-control sequence. -/
def isAnsiBody (c : Char) : Bool := ('0' ≤ c && c ≤ '9') || c = ';'

/-- Try to match `\x1b\[[0-9;]*m` at the head of the string; on success
return the matched text and the remainder. -/
def matchAnsi : Str → Option (Str × Str)
  | c1 :: c2 :: rest =>
    if c1 = escChar ∧ c2 = '[' then
      match rest.dropWhile isAnsiBody with
      | 'm' :: r => some (c1 :: c2 :: rest.takeWhile isAnsiBody ++ ['m'], r)
      | _ => none
    else none
  | _ => none

theorem matchAnsi_sound {s m r : Str} (h : matchAnsi s = some (m, r)) :
    s = m ++ r ∧ 3 ≤ m.length := by
  match s with
  | [] => simp [matchAnsi] at h
  | [c] => simp [matchAnsi] at h
  | c1 :: c2 :: rest =>
    simp only [matchAnsi] at h
    split at h
    · rename_i hcc
      obtain ⟨hc1, hc2⟩ := hcc
      split at h
      · rename_i r' hdrop
        simp only [Option.some.injEq, Prod.mk.injEq] at h
        obtain ⟨hm, hr⟩ := h
        subst hm hr hc1 hc2
        refine ⟨?_, by simp⟩
        have hsplit := List.takeWhile_append_dropWhile isAnsiBody rest
        rw [hdrop] at hsplit
        simp only [List.cons_append, List.append_assoc, List.cons.injEq, true_and,
          List.singleton_append]
        exact hsplit.symm
      · exact absurd h (by simp)
    · exact absurd h (by simp)

/-- If the head character is not the escape character, no match starts here. -/
theorem matchAnsi_none_of_head {c : Char} (t : Str) (h : ¬ c = escChar) :
    matchAnsi (c :: t) = none := by
  match t with
  | [] => simp [matchAnsi]
  | c2 :: rest =>
    simp only [matchAnsi]
    rw [if_neg (by tauto)]

/-- Strip all (leftmost, non-overlapping) ANSI color matches.  Fuel-indexed
version of the replacement loop of `ansiRegexp.ReplaceAllString(s, "")`;
each step consumes at least one character, so `s.length` fuel suffices. -/
def ansiStripAux : Nat → Str → Str
  | 0, s => s
  | _ + 1, [] => []
  | fuel + 1, c :: t =>
    match matchAnsi (c :: t) with
    | some (_, r) => ansiStripAux fuel r
    | none => c :: ansiStripAux fuel t

/-- Go `stripANSI`: remove every color-control sequence. -/
def ansiStrip (s : Str) : Str := ansiStripAux s.length s

theorem ansiStripAux_congr :
    ∀ f1 f2 (s : Str), s.length ≤ f1 → s.length ≤ f2 →
      ansiStripAux f1 s = ansiStripAux f2 s := by
  intro f1
  induction f1 with
  | zero =>
    intro f2 s hs1 _
    have : s = [] := List.length_eq_zero.mp (Nat.le_zero.mp hs1)
    subst this
    cases f2 <;> simp [ansiStripAux]
  | succ f1 ih =>
    intro f2 s hs1 hs2
    cases s with
    | nil => cases f2 <;> simp [ansiStripAux]
    | cons c t =>
      cases f2 with
      | zero => simp at hs2
      | succ f2 =>
        simp only [ansiStripAux]
        simp only [List.length_cons] at hs1 hs2
        cases h : matchAnsi (c :: t) with
        | none =>
          have ht1 : t.length ≤ f1 := by omega
          have ht2 : t.length ≤ f2 := by omega
          rw [ih f2 t ht1 ht2]
        | some mr =>
          obtain ⟨m, r⟩ := mr
          obtain ⟨hsplit, hlen⟩ := matchAnsi_sound h
          have hr : r.length + 3 ≤ t.length + 1 := by
            have := congrArg List.length hsplit
            simp only [List.length_append, List.length_cons] at this
            omega
          have hr1 : r.length ≤ f1 := by omega
          have hr2 : r.length ≤ f2 := by omega
          exact ih f2 r hr1 hr2

/-- Unfolding equation: stripping the empty string. -/
theorem ansiStrip_nil : ansiStrip [] = [] := rfl

/-- Unfolding equation: a match at the head is removed. -/
theorem ansiStrip_match {s m r : Str} (h : matchAnsi s = some (m, r)) :
    ansiStrip s = ansiStrip r := by
  obtain ⟨hsplit, hlen⟩ := matchAnsi_sound h
  cases s with
  | nil => simp [matchAnsi] at h
  | cons c t =>
    unfold ansiStrip
    have hlens := congrArg List.length hsplit
    simp only [List.length_append, List.length_cons] at hlens
    have hr : r.length ≤ t.length := by omega
    simp only [List.length_cons, ansiStripAux, h]
    exact ansiStripAux_congr t.length r.length r hr le_rfl

/-- Unfolding equation: no match at the head keeps the character. -/
theorem ansiStrip_no_match {c : Char} {t : Str} (h : matchAnsi (c :: t) = none) :
    ansiStrip (c :: t) = c :: ansiStrip t := by
  unfold ansiStrip
  simp only [List.length_cons, ansiStripAux, h]

/-- Strings without the escape character are unchanged by stripping. -/
theorem ansiStrip_of_no_esc {s : Str} (h : escChar ∉ s) : ansiStrip s = s := by
  induction s with
  | nil => rfl
  | cons c t ih =>
    have hc : ¬ c = escChar := fun hc => h (hc ▸ List.mem_cons_self c t)
    rw [ansiStrip_no_match (matchAnsi_none_of_head t hc),
      ih (fun hm => h (List.mem_cons_of_mem c hm))]

/-- Every character surviving the strip was present in the input. -/
theorem mem_of_mem_ansiStrip {s : Str} {c : Char} (h : c ∈ ansiStrip s) :
    c ∈ s := by
  generalize hn : s.length = n
  induction n using Nat.strong_induction_on generalizing s with
  | _ n ih =>
    cases s with
    | nil => simp [ansiStrip_nil] at h
    | cons d t =>
      simp only [List.length_cons] at hn
      cases hm : matchAnsi (d :: t) with
      | none =>
        rw [ansiStrip_no_match hm] at h
        rcases h with _ | h'
        · exact List.mem_cons_self _ _
        · exact List.mem_cons_of_mem _
            (ih t.length (by omega) ‹c ∈ ansiStrip t› rfl)
      | some mr =>
        obtain ⟨m, r⟩ := mr
        obtain ⟨hsplit, hlen⟩ := matchAnsi_sound hm
        rw [ansiStrip_match hm] at h
        have hlens := congrArg List.length hsplit
        simp only [List.length_append, List.length_cons] at hlens
        have hr : r.length < n := by omega
        have hcr : c ∈ r := ih r.length hr h rfl
        rw [hsplit]
        exact List.mem_append_right m hcr

/-! ## The width model of `internal/textwidth`

`lineWidth` encodes the ANSI-stripped line as GBK and takes the byte
length; if the encoder rejects a rune the whole line falls back to
`fallbackWidth` (1 column for ASCII, 2 otherwise, skipping CR/LF).

The GBK encoder itself lives in the third-party `golang.org/x/text`
dependency and is modelled per rune: every ASCII rune encodes in one byte,
the euro sign U+20AC encodes in the single byte 0x80 (a GBK special case of
that encoder), every other rune of the GBK repertoire encodes in two bytes,
and runes outside the repertoire make the encoder fail.  The repertoire is
represented here by an explicit finite list restricted to the non-ASCII
characters this development touches (the CJK characters the program prints
and the pinyin vowel used as a counterexample); characters in GBK but
missing from the list are sent to the failure branch, which yields the same
2-columns-per-rune count for every non-ASCII, non-euro rune, so no width
value proved or computed below depends on the approximation. -/

/-- Non-ASCII characters of the modelled GBK repertoire. -/
def gbkRepertoire : List Char :=
  ['é', '中', '文', '日', '一', '二', '三', '四', '五', '六',
   '年', '月', '初', '正', '腊', '冬', '立', '春', '调', '休', '│']

/-- Byte length of one rune under the modelled GBK encoder, `none` when the
encoder rejects the rune. -/
def gbkRuneLen (c : Char) : Option Nat :=
  if c.toNat ≤ 127 then some 1
  else if c = '€' then some 1
  else if gbkRepertoire.contains c then some 2
  else none

/-- Byte length of a whole string under the modelled GBK encoder; any
rejected rune makes the whole encoding fail, as `transform.String` reports
an error for the line. -/
def gbkEncodeLen : Str → Option Nat
  | [] => some 0
  | c :: t =>
    match gbkRuneLen c, gbkEncodeLen t with
    | some a, some b => some (a + b)
    | _, _ => none

/-- Go `fallbackWidth`: 1 column for ASCII runes, 2 for the rest, skipping
carriage returns and line feeds. -/
def fallbackWidth (s : Str) : Nat :=
  s.foldl (fun w r =>
    if r = '\n' ∨ r = '\r' then w
    else if r.toNat ≤ 127 then w + 1 else w + 2) 0

/-- Go `lineWidth`: strip ANSI sequences, then GBK byte length, falling back
to `fallbackWidth` when the encoder fails. -/
def lineWidth (s : Str) : Nat :=
  if s = [] then 0
  else
    match gbkEncodeLen (ansiStrip s) with
    | some n => n
    | none => fallbackWidth (ansiStrip s)

/-- Go `StringWidth`: the maximum of `lineWidth` over the lines of the
string, 0 for the empty string. -/
def StringWidth (s : Str) : Nat :=
  if s = [] then 0
  else (splitNL s).foldl (fun m l => max m (lineWidth l)) 0

/-- Go `PadRight`: append ASCII spaces until the rendered width reaches the
target; a no-op when the string is already at least that wide. -/
def PadRight (s : Str) (width : Int) : Str :=
  if width - (StringWidth s : Int) ≤ 0 then s
  else s ++ List.replicate (width - (StringWidth s : Int)).toNat ' '

/-! ## Spec-side width definitions

These definitions follow the wording of the specification (§4.1) rather
than the source, for comparison with the embedded code. -/

/-- Column count of a line as the original claim words it: every
ASCII/Latin-1 code point (≤ U+00FF) contributes 1 column, every other code
point 2. -/
def latin1LineCount (s : Str) : Nat :=
  s.foldr (fun c n => (if c.toNat ≤ 255 then 1 else 2) + n) 0

/-- Width per the original claim C3: maximum over lines of the Latin-1-based
column count of the ANSI-stripped line. -/
def widthSpecLatin1 (t : Str) : Nat :=
  (splitNL t).foldl (fun m l => max m (latin1LineCount (ansiStrip l))) 0

/-- Column count of a line with the ASCII/non-ASCII dichotomy the code
actually realises: 1 column for ASCII code points, 2 for all others. -/
def asciiWideCount (s : Str) : Nat :=
  s.foldr (fun c n => (if c.toNat ≤ 127 then 1 else 2) + n) 0

/-- Width per the amended claim C3: maximum over lines of the ASCII-based
column count of the ANSI-stripped line. -/
def widthSpecAscii (t : Str) : Nat :=
  (splitNL t).foldl (fun m l => max m (asciiWideCount (ansiStrip l))) 0

theorem gbkEncodeLen_eq_asciiWide {x : Str} (heuro : '€' ∉ x) {n : Nat}
    (h : gbkEncodeLen x = some n) : n = asciiWideCount x := by
  induction x generalizing n with
  | nil => simp [gbkEncodeLen] at h; simp [asciiWideCount, ← h]
  | cons c t ih =>
    have hc : c ≠ '€' := fun hc => heuro (hc ▸ List.mem_cons_self c t)
    have ht : '€' ∉ t := fun hm => heuro (List.mem_cons_of_mem c hm)
    simp only [gbkEncodeLen] at h
    by_cases hascii : c.toNat ≤ 127
    · rw [show gbkRuneLen c = some 1 from by simp [gbkRuneLen, hascii]] at h
      cases ht2 : gbkEncodeLen t with
      | none => rw [ht2] at h; simp at h
      | some b =>
        rw [ht2] at h
        simp only [Option.some.injEq] at h
        simp only [asciiWideCount, List.foldr_cons, if_pos hascii]
        rw [← asciiWideCount, ← ih ht ht2]
        omega
    · have hru : gbkRuneLen c = if gbkRepertoire.contains c then some 2 else none := by
        simp [gbkRuneLen, hascii, hc]
      rw [hru] at h
      by_cases hrep : gbkRepertoire.contains c
      · rw [if_pos hrep] at h
        cases ht2 : gbkEncodeLen t with
        | none => rw [ht2] at h; simp at h
        | some b =>
          rw [ht2] at h
          simp only [Option.some.injEq] at h
          simp only [asciiWideCount, List.foldr_cons, if_neg hascii]
          rw [← asciiWideCount, ← ih ht ht2]
          omega
      · rw [if_neg hrep] at h; simp at h

theorem fallbackWidth_acc (x : Str) (a : Nat) :
    x.foldl (fun w r =>
      if r = '\n' ∨ r = '\r' then w
      else if r.toNat ≤ 127 then w + 1 else w + 2) a =
    a + x.foldl (fun w r =>
      if r = '\n' ∨ r = '\r' then w
      else if r.toNat ≤ 127 then w + 1 else w + 2) 0 := by
  induction x generalizing a with
  | nil => simp
  | cons c t ih =>
    simp only [List.foldl_cons]
    by_cases hcr : c = '\n' ∨ c = '\r'
    · rw [if_pos hcr, if_pos hcr, ih]
    · rw [if_neg hcr, if_neg hcr]
      by_cases hascii : c.toNat ≤ 127
      · rw [if_pos hascii, if_pos hascii, ih, ih 1]; omega
      · rw [if_neg hascii, if_neg hascii, ih, ih 2]; omega

theorem fallbackWidth_eq_asciiWide {x : Str} (hn : '\n' ∉ x) (hr : '\r' ∉ x) :
    fallbackWidth x = asciiWideCount x := by
  induction x with
  | nil => rfl
  | cons c t ih =>
    have hc : ¬ (c = '\n' ∨ c = '\r') := by
      rintro (h | h)
      · exact hn (h ▸ List.mem_cons_self c t)
      · exact hr (h ▸ List.mem_cons_self c t)
    have ihv := ih (fun h => hn (List.mem_cons_of_mem c h))
      (fun h => hr (List.mem_cons_of_mem c h))
    simp only [fallbackWidth, List.foldl_cons, if_neg hc] at *
    by_cases hascii : c.toNat ≤ 127
    · rw [if_pos hascii, fallbackWidth_acc]
      simp only [asciiWideCount, List.foldr_cons, if_pos hascii]
      rw [← asciiWideCount, ← ihv]
    · rw [if_neg hascii, fallbackWidth_acc]
      simp only [asciiWideCount, List.foldr_cons, if_neg hascii]
      rw [← asciiWideCount, ← ihv]

/-- On a line free of euro signs, carriage returns and newlines, the code's
`lineWidth` is exactly the 1-per-ASCII / 2-per-other count of the stripped
line, whichever branch the GBK encoder takes. -/
theorem lineWidth_eq_asciiWide {l : Str} (heuro : '€' ∉ l) (hr : '\r' ∉ l)
    (hn : '\n' ∉ l) : lineWidth l = asciiWideCount (ansiStrip l) := by
  cases l with
  | nil => rfl
  | cons c t =>
    have hne : (c :: t : Str) ≠ [] := by simp
    unfold lineWidth
    rw [if_neg hne]
    have heuro' : '€' ∉ ansiStrip (c :: t) :=
      fun h => heuro (mem_of_mem_ansiStrip h)
    have hr' : '\r' ∉ ansiStrip (c :: t) :=
      fun h => hr (mem_of_mem_ansiStrip h)
    have hn' : '\n' ∉ ansiStrip (c :: t) :=
      fun h => hn (mem_of_mem_ansiStrip h)
    cases hg : gbkEncodeLen (ansiStrip (c :: t)) with
    | some n => exact gbkEncodeLen_eq_asciiWide heuro' hg
    | none => exact fallbackWidth_eq_asciiWide hn' hr'

/-! ## Well-formed color-control sequences

A well-formed sequence is `ESC '[' body 'm'` with `body` drawn from
`[0-9;]`; these are exactly the strings the stripper removes. -/

theorem takeWhile_body {body : Str} (hb : ∀ x ∈ body, isAnsiBody x = true)
    (v : Str) :
    (body ++ 'm' :: v).takeWhile isAnsiBody = body ∧
    (body ++ 'm' :: v).dropWhile isAnsiBody = 'm' :: v := by
  induction body with
  | nil =>
    have hm : isAnsiBody 'm' = false := by decide
    constructor
    · simp [List.takeWhile, hm]
    · simp [List.dropWhile, hm]
  | cons c t ih =>
    have hc : isAnsiBody c = true := hb c (List.mem_cons_self c t)
    have iht := ih (fun x hx => hb x (List.mem_cons_of_mem c hx))
    constructor
    · simp only [List.cons_append, List.takeWhile_cons, hc, if_true, iht.1]
    · simp only [List.cons_append, List.dropWhile_cons, hc, if_true, iht.2]

theorem matchAnsi_wf {body : Str} (hb : ∀ x ∈ body, isAnsiBody x = true)
    (v : Str) :
    matchAnsi (escChar :: '[' :: (body ++ 'm' :: v)) =
      some (escChar :: '[' :: body ++ ['m'], v) := by
  obtain ⟨htake, hdrop⟩ := takeWhile_body hb v
  simp only [matchAnsi, hdrop, htake, if_pos (And.intro rfl rfl)]
  simp

/-- Stripping removes a single well-formed sequence inserted between two
escape-free strings and leaves everything else untouched. -/
theorem ansiStrip_insert {u v body : Str} (hu : escChar ∉ u)
    (hb : ∀ x ∈ body, isAnsiBody x = true) (hv : escChar ∉ v) :
    ansiStrip (u ++ (escChar :: '[' :: body ++ ['m']) ++ v) = u ++ v := by
  induction u with
  | nil =>
    have : (escChar :: '[' :: body ++ ['m']) ++ v =
        escChar :: '[' :: (body ++ 'm' :: v) := by simp
    simp only [List.nil_append, this]
    rw [ansiStrip_match (matchAnsi_wf hb v), ansiStrip_of_no_esc hv]
  | cons c u' ih =>
    have hc : ¬ c = escChar := fun hc => hu (hc ▸ List.mem_cons_self c u')
    have hu' : escChar ∉ u' := fun h => hu (List.mem_cons_of_mem c h)
    rw [show (c :: u' : Str) ++ (escChar :: '[' :: body ++ ['m']) ++ v =
      c :: (u' ++ (escChar :: '[' :: body ++ ['m']) ++ v) from by simp]
    rw [ansiStrip_no_match (matchAnsi_none_of_head _ hc), ih hu']
    simp

theorem no_newline_wf {body : Str} (hb : ∀ x ∈ body, isAnsiBody x = true) :
    '\n' ∉ (escChar :: '[' :: body ++ ['m'] : Str) := by
  intro h
  rcases List.mem_cons.mp h with h1 | h1
  · exact absurd h1.symm (by decide)
  rcases List.mem_cons.mp h1 with h2 | h2
  · exact absurd h2.symm (by decide)
  rcases List.mem_append.mp h2 with h3 | h3
  · have := hb _ h3
    simp [isAnsiBody] at this
  · simp at h3

theorem foldl_max_congr {α : Type} (f g : α → Nat) :
    ∀ (ls : List α) (a : Nat), (∀ l ∈ ls, f l = g l) →
      ls.foldl (fun m l => max m (f l)) a = ls.foldl (fun m l => max m (g l)) a := by
  intro ls
  induction ls with
  | nil => intro a _; rfl
  | cons x xs ih =>
    intro a hfg
    simp only [List.foldl_cons]
    rw [hfg x (List.mem_cons_self x xs)]
    exact ih _ (fun l hl => hfg l (List.mem_cons_of_mem x hl))

/-- A line consisting of one well-formed color-control sequence measures 0. -/
theorem lineWidth_wf_zero {body : Str} (hb : ∀ x ∈ body, isAnsiBody x = true) :
    lineWidth (escChar :: '[' :: body ++ ['m']) = 0 := by
  have hstrip : ansiStrip (escChar :: '[' :: body ++ ['m']) = [] := by
    have := ansiStrip_insert (show escChar ∉ ([] : Str) by simp) hb
      (show escChar ∉ ([] : Str) by simp)
    simpa using this
  unfold lineWidth
  rw [if_neg (by simp), hstrip]
  rfl

/-- Claim C3, counterexample: the claim counts every Latin-1 code point as
one column, but the code renders the GBK-encodable Latin-1 character é
(U+00E9, a two-byte GBK pinyin vowel) as two columns. -/
theorem claim_c3_counterexample :
    StringWidth ['é'] = 2 ∧ widthSpecLatin1 ['é'] = 1 := by decide

/-- Claim C3 (amended): for every text containing no euro sign and no
carriage return (the euro sign is the one non-ASCII rune the GBK encoder
packs into a single byte, and carriage returns are counted differently by
the two width branches), `StringWidth` is the maximum over the lines split
on line breaks of the per-line count that charges 1 column per ASCII code
point and 2 per non-ASCII code point — not 1 per ASCII/Latin-1 point as
originally claimed — with color-control sequences stripped before
measurement; the empty string has width 0 and a line holding only a
well-formed control sequence has width 0. -/
theorem claim_c3_width_model (t : Str) (heuro : '€' ∉ t) (hcr : '\r' ∉ t) :
    StringWidth t = widthSpecAscii t ∧
    StringWidth ([] : Str) = 0 ∧
    (∀ body : Str, (∀ x ∈ body, isAnsiBody x = true) →
      StringWidth (escChar :: '[' :: body ++ ['m']) = 0) := by
  refine ⟨?_, rfl, ?_⟩
  · cases t with
    | nil => decide
    | cons c r =>
      unfold StringWidth widthSpecAscii
      rw [if_neg (by simp)]
      exact foldl_max_congr _ _ _ 0 (fun l hl =>
        lineWidth_eq_asciiWide
          (fun h => heuro (mem_of_mem_splitNL hl h))
          (fun h => hcr (mem_of_mem_splitNL hl h))
          (splitNL_no_newline hl))
  · intro body hb
    unfold StringWidth
    rw [if_neg (by simp)]
    rw [splitNL_eq_single (no_newline_wf hb)]
    simp only [List.foldl_cons, List.foldl_nil, lineWidth_wf_zero hb]
    rfl

/-- Witness for claim C3's amended theorem at a concrete mixed-width text. -/
theorem claim_c3_width_model_witness :
    StringWidth ('A' :: '中' :: '\n' :: ['文']) =
        widthSpecAscii ('A' :: '中' :: '\n' :: ['文']) ∧
    StringWidth ([] : Str) = 0 ∧
    (∀ body : Str, (∀ x ∈ body, isAnsiBody x = true) →
      StringWidth (escChar :: '[' :: body ++ ['m']) = 0) :=
  claim_c3_width_model ('A' :: '中' :: '\n' :: ['文']) (by decide) (by decide)

/-! ## Padding lemmas

Appending ASCII spaces commutes with the ANSI scanner (a space can neither
start, continue nor terminate a control sequence) and adds exactly one
column per space to every width branch. -/

theorem takeWhile_append_stop {p : Char → Bool} {w : Str}
    (hw : ∀ c w', w = c :: w' → p c = false) :
    ∀ u : Str, (u ++ w).takeWhile p = u.takeWhile p ∧
      (u ++ w).dropWhile p = u.dropWhile p ++ w := by
  intro u
  induction u with
  | nil =>
    cases w with
    | nil => simp
    | cons c w' =>
      have hc := hw c w' rfl
      simp [List.takeWhile_cons, List.dropWhile_cons, hc]
  | cons c u' ih =>
    simp only [List.cons_append, List.takeWhile_cons, List.dropWhile_cons]
    cases hc : p c with
    | true =>
      simp only [if_pos trivial, ih.1, ih.2, List.cons_append]
      constructor <;> trivial
    | false =>
      simp only [Bool.false_eq_true, if_false]
      constructor <;> trivial

theorem spaces_head_not_body :
    ∀ (n : Nat) (c : Char) (w' : Str), List.replicate n ' ' = c :: w' →
      isAnsiBody c = false := by
  intro n c w' h
  cases n with
  | zero => simp at h
  | succ k =>
    simp only [List.replicate] at h
    rw [show c = ' ' from (List.cons.injEq _ _ _ _ ▸ h).1.symm]
    decide

theorem matchAnsi_none_append_spaces {x : Str} (h : matchAnsi x = none)
    (n : Nat) : matchAnsi (x ++ List.replicate n ' ') = none := by
  match x with
  | [] =>
    match n with
    | 0 => rfl
    | 1 => rfl
    | n + 2 =>
      simp only [List.nil_append, List.replicate, matchAnsi]
      rw [if_neg (by rintro ⟨h1, _⟩; exact absurd h1.symm (by decide))]
  | [c] =>
    match n with
    | 0 => simpa using h
    | n + 1 =>
      simp only [List.singleton_append, List.replicate, matchAnsi]
      rw [if_neg (by rintro ⟨_, h2⟩; exact absurd h2.symm (by decide))]
  | c1 :: c2 :: rest =>
    have hstop := takeWhile_append_stop (spaces_head_not_body n) rest
    simp only [matchAnsi] at h ⊢
    simp only [List.cons_append]
    split at h
    · rename_i hcc
      rw [if_pos hcc, hstop.2]
      split at h
      · exact absurd h (by simp)
      · rename_i hshape
        cases hd : rest.dropWhile isAnsiBody with
        | nil =>
          cases n with
          | zero => simp [hd]
          | succ k =>
            simp only [hd, List.nil_append, List.replicate]
            rfl
        | cons d r =>
          have hdm : ¬ d = 'm' := by
            intro hdm
            subst hdm
            exact hshape r hd
          simp only [hd, List.cons_append]
          split
          · rename_i heq
            exact absurd (List.cons.injEq _ _ _ _ ▸ heq).1 hdm
          · rfl
    · rename_i hcc
      rw [if_neg hcc]

theorem matchAnsi_some_append_spaces {x m r : Str}
    (h : matchAnsi x = some (m, r)) (n : Nat) :
    matchAnsi (x ++ List.replicate n ' ') =
      some (m, r ++ List.replicate n ' ') := by
  match x with
  | [] => simp [matchAnsi] at h
  | [c] => simp [matchAnsi] at h
  | c1 :: c2 :: rest =>
    have hstop := takeWhile_append_stop (spaces_head_not_body n) rest
    simp only [matchAnsi] at h ⊢
    simp only [List.cons_append]
    split at h
    · rename_i hcc
      rw [if_pos hcc, hstop.2, hstop.1]
      split at h
      · rename_i r' hd
        simp only [Option.some.injEq, Prod.mk.injEq] at h
        obtain ⟨hm, hr⟩ := h
        subst hm hr
        simp only [hd, List.cons_append]
      · exact absurd h (by simp)
    · exact absurd h (by simp)

theorem ansiStrip_replicate_spaces (n : Nat) :
    ansiStrip (List.replicate n ' ') = List.replicate n ' ' :=
  ansiStrip_of_no_esc (fun h =>
    absurd (List.eq_of_mem_replicate h).symm (by decide))

theorem ansiStrip_append_spaces (n : Nat) :
    ∀ x : Str, ansiStrip (x ++ List.replicate n ' ') =
      ansiStrip x ++ List.replicate n ' ' := by
  intro x
  generalize hk : x.length = k
  induction k using Nat.strong_induction_on generalizing x with
  | _ k ih =>
    cases x with
    | nil =>
      simpa [ansiStrip_nil] using ansiStrip_replicate_spaces n
    | cons c t =>
      simp only [List.length_cons] at hk
      cases hm : matchAnsi (c :: t) with
      | none =>
        have hm2 := matchAnsi_none_append_spaces hm n
        rw [List.cons_append] at hm2 ⊢
        rw [ansiStrip_no_match hm2, ansiStrip_no_match hm,
          ih t.length (by omega) t rfl]
        simp
      | some mr =>
        obtain ⟨m, r⟩ := mr
        have hm2 := matchAnsi_some_append_spaces hm n
        obtain ⟨hsplit, hlen⟩ := matchAnsi_sound hm
        have hlens := congrArg List.length hsplit
        simp only [List.length_append, List.length_cons] at hlens
        rw [ansiStrip_match hm2, ansiStrip_match hm,
          ih r.length (by omega) r rfl]

theorem gbkEncodeLen_replicate_spaces (n : Nat) :
    gbkEncodeLen (List.replicate n ' ') = some n := by
  induction n with
  | zero => rfl
  | succ k ihn =>
    simp only [List.replicate, gbkEncodeLen, ihn]
    rw [show gbkRuneLen ' ' = some 1 from by decide]
    simp only [Nat.add_comm]

theorem gbkEncodeLen_append_spaces (n : Nat) :
    ∀ x : Str, gbkEncodeLen (x ++ List.replicate n ' ') =
      (gbkEncodeLen x).map (· + n) := by
  intro x
  induction x with
  | nil =>
    simp [List.nil_append, gbkEncodeLen, gbkEncodeLen_replicate_spaces]
  | cons c t ih =>
    simp only [List.cons_append, gbkEncodeLen, List.append_eq]
    rw [ih]
    cases hc : gbkRuneLen c with
    | none => simp
    | some a =>
      cases ht : gbkEncodeLen t with
      | none => simp
      | some b =>
        simp only [Option.map_some']
        show some (a + (b + n)) = some (a + b + n)
        rw [Nat.add_assoc]

theorem fallbackWidth_append_spaces (n : Nat) (x : Str) :
    fallbackWidth (x ++ List.replicate n ' ') = fallbackWidth x + n := by
  unfold fallbackWidth
  rw [List.foldl_append, fallbackWidth_acc]
  congr 1
  induction n with
  | zero => simp
  | succ k ihn =>
    simp only [List.replicate, List.foldl_cons]
    rw [show ((if (' ' : Char) = '\n' ∨ (' ' : Char) = '\r' then (0 : Nat)
      else if (' ' : Char).toNat ≤ 127 then 0 + 1 else 0 + 2)) = 1 from by decide]
    rw [fallbackWidth_acc, ihn]
    omega

theorem lineWidth_append_spaces (n : Nat) (x : Str) :
    lineWidth (x ++ List.replicate n ' ') = lineWidth x + n := by
  cases x with
  | nil =>
    cases n with
    | zero => rfl
    | succ k =>
      show lineWidth (List.replicate (k + 1) ' ') = lineWidth [] + (k + 1)
      unfold lineWidth
      rw [if_neg (by simp [List.replicate]), if_pos rfl,
        ansiStrip_replicate_spaces, gbkEncodeLen_replicate_spaces]
      simp
  | cons c t =>
    unfold lineWidth
    rw [if_neg (by simp), if_neg (by simp)]
    rw [ansiStrip_append_spaces n (c :: t), gbkEncodeLen_append_spaces n]
    cases gbkEncodeLen (ansiStrip (c :: t)) with
    | some a => simp
    | none =>
      simp only [Option.map_none]
      exact fallbackWidth_append_spaces n _

/-- For a single-line string the overall width is just the line width. -/
theorem stringWidth_single {s : Str} (h : '\n' ∉ s) :
    StringWidth s = lineWidth s := by
  cases s with
  | nil => rfl
  | cons c t =>
    unfold StringWidth
    rw [if_neg (by simp), splitNL_eq_single h]
    simp

/-- Shared helper: on newline-free input the padded width is the maximum of
the original width and the target. -/
theorem padRight_width {s : Str} (h : '\n' ∉ s) (w : Int) :
    (StringWidth (PadRight s w) : Int) = max (StringWidth s : Int) w := by
  unfold PadRight
  by_cases hd : w - (StringWidth s : Int) ≤ 0
  · rw [if_pos hd, max_eq_left (by omega : w ≤ (StringWidth s : Int))]
  · rw [if_neg hd, max_eq_right (by omega : (StringWidth s : Int) ≤ w)]
    have hnn : '\n' ∉ s ++ List.replicate (w - (StringWidth s : Int)).toNat ' ' := by
      intro hmem
      rcases List.mem_append.mp hmem with h1 | h1
      · exact h h1
      · exact absurd (List.eq_of_mem_replicate h1).symm (by decide)
    rw [stringWidth_single hnn, lineWidth_append_spaces, ← stringWidth_single h]
    omega

/-- Claim C4, counterexample: for the two-line string "ab\nc" and target
width 5 the padding is appended after the final line only, so the resulting
width is 4, not max(2, 5) = 5. -/
theorem claim_c4_counterexample :
    ¬ ((StringWidth (PadRight ['a', 'b', '\n', 'c'] 5) : Int) =
        max ((StringWidth ['a', 'b', '\n', 'c'] : Int)) 5) := by decide

/-- Claim C4 (amended): for every string s containing no line break and
every integer w, Width(PadRight(s, w)) = max(Width(s), w); and for every
string (multi-line included) PadRight returns its input unchanged whenever
Width(s) ≥ w. The original universally quantified equation fails on
multi-line strings, where spaces are appended after the last line only. -/
theorem claim_c4_pad_width (s : Str) (w : Int) (h : '\n' ∉ s) :
    (StringWidth (PadRight s w) : Int) = max (StringWidth s : Int) w ∧
    (∀ (s' : Str) (w' : Int), w' ≤ (StringWidth s' : Int) → PadRight s' w' = s') := by
  refine ⟨padRight_width h w, ?_⟩
  intro s' w' hle
  unfold PadRight
  rw [if_pos (by omega)]

/-- Witness for claim C4's amended theorem on a concrete one-line string. -/
theorem claim_c4_pad_width_witness :
    (StringWidth (PadRight ['a', 'b', 'c'] 5) : Int) =
      max ((StringWidth ['a', 'b', 'c'] : Int)) 5 ∧
    (∀ (s' : Str) (w' : Int), w' ≤ (StringWidth s' : Int) → PadRight s' w' = s') :=
  claim_c4_pad_width ['a', 'b', 'c'] 5 (by decide)

/-- Claim C5, counterexample: PadRight is not idempotent on multi-line
strings; padding "ab\nc" to 5 gives "ab\nc   " of width 4, and padding the
result again appends one more space. -/
theorem claim_c5_counterexample :
    PadRight (PadRight ['a', 'b', '\n', 'c'] 5) 5 ≠
      PadRight ['a', 'b', '\n', 'c'] 5 := by decide

/-- Claim C5 (amended): PadRight is idempotent on every string without a
line break (the original claim over all strings fails on multi-line input,
where the first padding can stop short of the target width). -/
theorem claim_c5_pad_idem (s : Str) (w : Int) (h : '\n' ∉ s) :
    PadRight (PadRight s w) w = PadRight s w := by
  have hw := padRight_width h w
  have h2 : w ≤ (StringWidth (PadRight s w) : Int) := hw ▸ le_max_right _ _
  have hle : w - (StringWidth (PadRight s w) : Int) ≤ 0 := by omega
  generalize hP : PadRight s w = P at hle ⊢
  unfold PadRight
  rw [if_pos hle]

/-- Witness for claim C5's amended theorem on a concrete one-line string. -/
theorem claim_c5_pad_idem_witness :
    PadRight (PadRight ['a', 'b', 'c'] 7) 7 = PadRight ['a', 'b', 'c'] 7 :=
  claim_c5_pad_idem ['a', 'b', 'c'] 7 (by decide)

/-! ## Invariance of the width under control-sequence insertion -/

/-- The width is the fold of line widths even for the empty string (whose
single empty line also measures 0), removing the emptiness guard. -/
theorem stringWidth_eq_fold (s : Str) :
    StringWidth s = (splitNL s).foldl (fun m l => max m (lineWidth l)) 0 := by
  cases s with
  | nil => rfl
  | cons c t =>
    unfold StringWidth
    rw [if_neg (by simp)]

/-- The line width only depends on the ANSI-stripped text. -/
theorem lineWidth_eq_strip (x : Str) :
    lineWidth x = match gbkEncodeLen (ansiStrip x) with
      | some n => n
      | none => fallbackWidth (ansiStrip x) := by
  cases x with
  | nil => rfl
  | cons c t =>
    unfold lineWidth
    rw [if_neg (by simp)]

theorem headD_mem {L : List Str} (h : L ≠ []) : L.headD [] ∈ L := by
  cases L with
  | nil => exact absurd rfl h
  | cons x xs => exact List.mem_cons_self x xs

/-- Prepending a newline-free prefix extends the first line of the split. -/
theorem splitNL_prepend {u : Str} (hu : '\n' ∉ u) (v : Str) :
    splitNL (u ++ v) = (u ++ (splitNL v).headD []) :: (splitNL v).tail := by
  induction u with
  | nil =>
    cases hv : splitNL v with
    | nil => exact absurd hv (splitNL_ne_nil v)
    | cons h t => simp [hv]
  | cons d u' ih =>
    have hd : ¬ d = '\n' := fun h => hu (h ▸ List.mem_cons_self d u')
    have hu' : '\n' ∉ u' := fun h => hu (List.mem_cons_of_mem d h)
    rw [List.cons_append]
    simp only [splitNL, if_neg hd, ih hu']
    simp

/-- Appending to a string extends the last line of its split: the split of
`a ++ z` is the split of `a` with its last piece glued onto the first piece
of the split of `z`. -/
theorem splitNL_append_decomp (a : Str) :
    ∃ D G, splitNL a = D ++ [G] ∧
      ∀ z : Str, splitNL (a ++ z) =
        D ++ (G ++ (splitNL z).headD []) :: (splitNL z).tail := by
  induction a with
  | nil =>
    refine ⟨[], [], by simp [splitNL], ?_⟩
    intro z
    cases hz : splitNL z with
    | nil => exact absurd hz (splitNL_ne_nil z)
    | cons h t => simp [hz]
  | cons d a' ih =>
    obtain ⟨D, G, h1, h2⟩ := ih
    by_cases hd : d = '\n'
    · subst hd
      refine ⟨[] :: D, G, ?_, ?_⟩
      · simp only [splitNL, h1, List.cons_append]
        simp
      · intro z
        rw [List.cons_append]
        simp only [splitNL, h2 z, List.cons_append]
        simp
    · cases hD : D with
      | nil =>
        subst hD
        refine ⟨[], d :: G, ?_, ?_⟩
        · simp only [splitNL, if_neg hd, h1, List.nil_append]
        · intro z
          rw [List.cons_append]
          simp only [splitNL, if_neg hd, h2 z, List.nil_append]
          simp
      | cons p D2 =>
        subst hD
        refine ⟨(d :: p) :: D2, G, ?_, ?_⟩
        · simp only [splitNL, if_neg hd, h1, List.cons_append]
        · intro z
          rw [List.cons_append]
          simp only [splitNL, if_neg hd, h2 z, List.cons_append]

/-- Claim C6, counterexample: inserting a well-formed color sequence at a
split point that falls inside another escape sequence changes the width —
with a = ESC '[' and b = "0m", the text a ++ b strips to nothing (width 0),
but after inserting ESC '[' "31m" between them the stripper consumes the
inserted sequence instead, leaving the four halves visible (width 4). -/
theorem claim_c6_counterexample :
    ¬ (StringWidth ([escChar, '['] ++ [escChar, '[', '3', '1', 'm'] ++ ['0', 'm']) =
        StringWidth ([escChar, '['] ++ ['0', 'm'])) := by decide

/-- Claim C6 (amended): Width is invariant under insertion of a well-formed
color-control sequence ESC '[' digits/semicolons 'm' at any split point of
any text that itself contains no escape character; without that restriction
the claim fails, since an insertion inside a partially formed escape
sequence changes what the stripper matches. -/
theorem claim_c6_insert_invariance (a b body : Str)
    (hbody : ∀ x ∈ body, isAnsiBody x = true)
    (ha : escChar ∉ a) (hb : escChar ∉ b) :
    StringWidth (a ++ (escChar :: '[' :: body ++ ['m']) ++ b) =
      StringWidth (a ++ b) := by
  obtain ⟨D, G, h1, h2⟩ := splitNL_append_decomp a
  have hGmem : G ∈ splitNL a := by
    rw [h1]
    exact List.mem_append_right D (List.mem_singleton.mpr rfl)
  have hGesc : escChar ∉ G := fun h => ha (mem_of_mem_splitNL hGmem h)
  have hbmem : (splitNL b).headD [] ∈ splitNL b := headD_mem (splitNL_ne_nil b)
  have hbesc : escChar ∉ (splitNL b).headD [] :=
    fun h => hb (mem_of_mem_splitNL hbmem h)
  have hcnl : '\n' ∉ (escChar :: '[' :: body ++ ['m'] : Str) := no_newline_wf hbody
  rw [stringWidth_eq_fold, stringWidth_eq_fold, List.append_assoc,
    h2 ((escChar :: '[' :: body ++ ['m']) ++ b), h2 b,
    splitNL_prepend hcnl b]
  simp only [List.headD_cons, List.tail_cons]
  rw [List.foldl_append, List.foldl_append, List.foldl_cons, List.foldl_cons]
  have hline : lineWidth (G ++ ((escChar :: '[' :: body ++ ['m']) ++ (splitNL b).headD [])) =
      lineWidth (G ++ (splitNL b).headD []) := by
    have hstrip : ansiStrip (G ++ ((escChar :: '[' :: body ++ ['m']) ++ (splitNL b).headD [])) =
        ansiStrip (G ++ (splitNL b).headD []) := by
      rw [show G ++ ((escChar :: '[' :: body ++ ['m']) ++ (splitNL b).headD []) =
        G ++ (escChar :: '[' :: body ++ ['m']) ++ (splitNL b).headD [] from
        (List.append_assoc _ _ _).symm]
      rw [ansiStrip_insert hGesc hbody hbesc,
        ansiStrip_of_no_esc (by
          intro h
          rcases List.mem_append.mp h with h' | h'
          · exact hGesc h'
          · exact hbesc h')]
    rw [lineWidth_eq_strip, lineWidth_eq_strip, hstrip]
  rw [hline]

/-- Witness for claim C6's amended theorem on a concrete escape-free text. -/
theorem claim_c6_insert_invariance_witness :
    StringWidth (['A'] ++ (escChar :: '[' :: ['3', '1'] ++ ['m']) ++ ['B']) =
      StringWidth (['A'] ++ ['B']) :=
  claim_c6_insert_invariance ['A'] ['B'] ['3', '1']
    (by decide) (by decide) (by decide)

/-! ## Calendar data model

Embedding of `internal/calendar`: `Day` carries a Gregorian date with lunar
metadata, and `MonthView` a month laid out into weeks (`part_003` of the
sources). Dates are triples of integers as produced by `time.Date`. -/

/-- A Gregorian calendar date (year, month, day), standing in for the
`time.Time` values the Go code threads around (always at day granularity). -/
structure GDate where
  year : Int
  month : Int
  day : Int
deriving DecidableEq, Repr

/-- Go `holidays.HolidayInfo`: holiday (true) versus workday/调休 (false),
plus the holiday name. -/
structure HolidayInfo where
  isHoliday : Bool
  name : Str
deriving DecidableEq, Repr

/-- Go `calendar.Day`. -/
structure Day where
  date : GDate
  inMonth : Bool
  lunarDayAlias : Str
  lunarMonthAlias : Str
  solarTerm : Str
  isToday : Bool
  hasLunarData : Bool
  holidayInfo : Option HolidayInfo
deriving DecidableEq, Repr

/-- Go `Day.SecondaryLabel`: solar terms take precedence, then the lunar
month name on the first day of a lunar month, then the lunar day name. -/
def Day.secondaryLabel (d : Day) : Str :=
  if d.solarTerm ≠ [] then d.solarTerm
  else if d.lunarDayAlias = '初' :: ['一'] ∧ d.lunarMonthAlias ≠ [] then d.lunarMonthAlias
  else d.lunarDayAlias

/-- Go `calendar.MonthView`. -/
structure MonthView where
  year : Int
  month : Int
  title : Str
  weeks : List (List Day)
deriving Repr

/-! ## Decimal rendering of day numbers

Embeds `fmt.Sprintf("%d", n)` for the natural numbers the renderer prints
(day-of-month values), via an explicit division loop with fuel. -/

/-- One decimal digit character. -/
def digitChar : Nat → Char
  | 0 => '0'
  | 1 => '1'
  | 2 => '2'
  | 3 => '3'
  | 4 => '4'
  | 5 => '5'
  | 6 => '6'
  | 7 => '7'
  | 8 => '8'
  | 9 => '9'
  | _ => '*'

theorem digitChar_ne_newline (d : Nat) : digitChar d ≠ '\n' := by
  unfold digitChar
  split <;> decide

def natToStrAux : Nat → Nat → Str
  | 0, _ => []
  | fuel + 1, n =>
    if n < 10 then [digitChar n]
    else natToStrAux fuel (n / 10) ++ [digitChar (n % 10)]

/-- Go `fmt.Sprintf("%d", n)` for a natural number. -/
def natToStr (n : Nat) : Str := natToStrAux (n + 1) n

theorem natToStrAux_no_newline (fuel : Nat) :
    ∀ n, '\n' ∉ natToStrAux fuel n := by
  induction fuel with
  | zero => intro n; simp [natToStrAux]
  | succ f ih =>
    intro n
    simp only [natToStrAux]
    by_cases hn : n < 10
    · rw [if_pos hn]
      intro h
      rcases List.mem_singleton.mp h with h
      exact digitChar_ne_newline n h.symm
    · rw [if_neg hn]
      intro h
      rcases List.mem_append.mp h with h1 | h1
      · exact ih (n / 10) h1
      · exact digitChar_ne_newline (n % 10) (List.mem_singleton.mp h1).symm

theorem natToStr_no_newline (n : Nat) : '\n' ∉ natToStr n :=
  natToStrAux_no_newline (n + 1) n

/-! ## The annotator of `internal/render/render.go` (`applyColors`)

The Go code walks the highlighted day numbers in descending order; for each
it substitutes every regexp match `(\s+)D(\s+|│)` (single-digit day) or
`(\s|│)D(\s+|│)` (two-digit day) in the rendered block with the same text
wrapped in color markers, then colors the secondary (lunar) label on the
line below the colored numeral.  The regexps are embedded as deterministic
scanners. -/

/-- Go regexp `\s` class: `[\t\n\f\r ]`. -/
def isGoSpace (c : Char) : Bool :=
  c = '\t' || c = '\n' || c = Char.ofNat 12 || c = '\r' || c = ' '

/-- The table border character used as a column separator. -/
def sepChar : Char := '│'

/-- Group 1 of the numeral patterns: for a single-digit day a nonempty run
of whitespace (`(\\s+)`), for a two-digit day one whitespace or border
character (`(\\s|│)`). Returns the group and the remainder. -/
def matchDayStart : Bool → Str → Option (Str × Str)
  | true, s =>
    if s.takeWhile isGoSpace = [] then none
    else some (s.takeWhile isGoSpace, s.dropWhile isGoSpace)
  | false, [] => none
  | false, c :: t => if isGoSpace c || c = sepChar then some ([c], t) else none

/-- Group 2 of the numeral patterns (`(\\s+|│)`): a nonempty whitespace
run, preferred by the regexp's alternation, or one border character. -/
def matchG2 : Str → Option (Str × Str)
  | [] => none
  | c :: t =>
    if isGoSpace c then
      some ((c :: t).takeWhile isGoSpace, (c :: t).dropWhile isGoSpace)
    else if c = sepChar then some ([c], t)
    else none

/-- The literal day numeral followed by group 2. -/
def matchDayTail (dayStr r1 : Str) : Option (Str × Str) :=
  if dayStr.isPrefixOf r1 then matchG2 (r1.drop dayStr.length)
  else none

/-- Match the whole numeral pattern at the head of `s`; returns
(group 1, group 2, rest). -/
def matchDayAt (single : Bool) (dayStr s : Str) : Option (Str × Str × Str) :=
  (matchDayStart single s).bind fun p =>
    (matchDayTail dayStr p.2).map fun q => (p.1, q.1, q.2)

theorem matchDayStart_sound {single : Bool} {s g1 r1 : Str}
    (h : matchDayStart single s = some (g1, r1)) :
    s = g1 ++ r1 ∧ g1 ≠ [] ∧
    (single = true → ∀ c ∈ g1, isGoSpace c = true) := by
  cases single with
  | true =>
    simp only [matchDayStart] at h
    by_cases htw : s.takeWhile isGoSpace = []
    · rw [if_pos htw] at h; simp at h
    · rw [if_neg htw] at h
      simp only [Option.some.injEq, Prod.mk.injEq] at h
      obtain ⟨hg1, hr1⟩ := h
      subst hg1 hr1
      exact ⟨(List.takeWhile_append_dropWhile isGoSpace s).symm, htw,
        fun _ c hc => List.mem_takeWhile_imp hc⟩
  | false =>
    cases s with
    | nil => simp [matchDayStart] at h
    | cons c t =>
      simp only [matchDayStart] at h
      by_cases hcs : (isGoSpace c || c = sepChar) = true
      · rw [if_pos hcs] at h
        simp only [Option.some.injEq, Prod.mk.injEq] at h
        obtain ⟨hg1, hr1⟩ := h
        subst hg1 hr1
        exact ⟨rfl, by simp, fun hfalse => by simp at hfalse⟩
      · rw [if_neg hcs] at h; simp at h

theorem matchG2_sound {u g2 rest : Str} (h : matchG2 u = some (g2, rest)) :
    u = g2 ++ rest ∧ g2 ≠ [] ∧
    (g2 = [sepChar] ∨ ∀ c ∈ g2, isGoSpace c = true) := by
  cases u with
  | nil => simp [matchG2] at h
  | cons c t =>
    simp only [matchG2] at h
    by_cases hsp : isGoSpace c = true
    · rw [if_pos hsp] at h
      simp only [Option.some.injEq, Prod.mk.injEq] at h
      obtain ⟨hg2, hrest⟩ := h
      subst hg2 hrest
      refine ⟨(List.takeWhile_append_dropWhile isGoSpace (c :: t)).symm, ?_,
        Or.inr (fun x hx => List.mem_takeWhile_imp hx)⟩
      simp [List.takeWhile_cons, hsp]
    · rw [if_neg hsp] at h
      by_cases hsep : c = sepChar
      · rw [if_pos hsep] at h
        simp only [Option.some.injEq, Prod.mk.injEq] at h
        obtain ⟨hg2, hrest⟩ := h
        subst hg2 hrest
        subst hsep
        exact ⟨rfl, by simp, Or.inl rfl⟩
      · rw [if_neg hsep] at h; simp at h

theorem matchDayTail_sound {dayStr r1 g2 rest : Str}
    (h : matchDayTail dayStr r1 = some (g2, rest)) :
    r1 = dayStr ++ g2 ++ rest ∧ g2 ≠ [] ∧
    (g2 = [sepChar] ∨ ∀ c ∈ g2, isGoSpace c = true) := by
  simp only [matchDayTail] at h
  by_cases hpre : dayStr.isPrefixOf r1
  · rw [if_pos hpre] at h
    obtain ⟨u, hu⟩ := List.isPrefixOf_iff_prefix.mp hpre
    have hdrop : r1.drop dayStr.length = u := by
      rw [← hu, List.drop_left]
    rw [hdrop] at h
    obtain ⟨h1, h2, h3⟩ := matchG2_sound h
    exact ⟨by rw [← hu, h1, List.append_assoc], h2, h3⟩
  · rw [if_neg hpre] at h; simp at h

theorem matchDayAt_sound {single : Bool} {dayStr s g1 g2 rest : Str}
    (h : matchDayAt single dayStr s = some (g1, g2, rest)) :
    s = g1 ++ dayStr ++ g2 ++ rest ∧ g1 ≠ [] ∧ g2 ≠ [] ∧
    (single = true → ∀ c ∈ g1, isGoSpace c = true) ∧
    (g2 = [sepChar] ∨ ∀ c ∈ g2, isGoSpace c = true) := by
  unfold matchDayAt at h
  cases hst : matchDayStart single s with
  | none => rw [hst] at h; simp at h
  | some p1 =>
    obtain ⟨g1', r1⟩ := p1
    rw [hst] at h
    simp only [Option.some_bind] at h
    cases htl : matchDayTail dayStr r1 with
    | none => rw [htl] at h; simp at h
    | some p2 =>
      obtain ⟨g2', rest'⟩ := p2
      rw [htl] at h
      simp only [Option.map_some', Option.some.injEq, Prod.mk.injEq] at h
      obtain ⟨h1, h2, h3⟩ := h
      subst h1 h2 h3
      obtain ⟨hs1, hne1, hsp1⟩ := matchDayStart_sound hst
      obtain ⟨hs2, hne2, hsp2⟩ := matchDayTail_sound htl
      refine ⟨?_, hne1, hne2, hsp1, hsp2⟩
      rw [hs1, hs2]
      simp [List.append_assoc]

/-- A successful match consumes at least the two nonempty groups, so the
rest is strictly shorter: this bounds the scanner's fuel. -/
theorem matchDayAt_rest_lt {single : Bool} {dayStr s g1 g2 rest : Str}
    (h : matchDayAt single dayStr s = some (g1, g2, rest)) :
    rest.length < s.length := by
  obtain ⟨hs, hne1, hne2, -, -⟩ := matchDayAt_sound h
  have h1 : 1 ≤ g1.length := List.length_pos.mpr hne1
  have h2 : 1 ≤ g2.length := List.length_pos.mpr hne2
  have := congrArg List.length hs
  simp only [List.length_append] at this
  omega

/-- Replace every (leftmost, non-overlapping) match of the numeral pattern
with the same text, the numeral wrapped in `cs`/`ce` markers: the embedding
of `re.ReplaceAllString(output, "${1}" + cs + dayStr + ce + "${2}")`.
Fuel-indexed; every step consumes at least one character. -/
def applyDayColorAux (single : Bool) (dayStr cs ce : Str) : Nat → Str → Str
  | 0, s => s
  | _ + 1, [] => []
  | fuel + 1, c :: t =>
    match matchDayAt single dayStr (c :: t) with
    | some (g1, g2, rest) =>
      g1 ++ cs ++ dayStr ++ ce ++ g2 ++ applyDayColorAux single dayStr cs ce fuel rest
    | none => c :: applyDayColorAux single dayStr cs ce fuel t

def applyDayColor (single : Bool) (dayStr cs ce s : Str) : Str :=
  applyDayColorAux single dayStr cs ce s.length s

/-! ## Color constants and highlight records of `applyColors` -/

/-- Blue foreground for holidays. -/
def holidayStart : Str := escChar :: "[38;2;59;130;246m".toList

/-- Orange foreground for workdays (调休). -/
def workdayStart : Str := escChar :: "[38;2;249;115;22m".toList

/-- Green foreground for today. -/
def todayStart : Str := escChar :: "[38;2;52;211;153m".toList

/-- Reset sequence ending every colored span. -/
def colorEnd : Str := escChar :: "[0m".toList

/-- Go `highlightInfo` of `render.go`. -/
structure HighlightInfo where
  day : Nat
  lunarLabel : Str
  hasHoliday : Bool
  isHoliday : Bool
  isToday : Bool
deriving DecidableEq, Repr

/-- The color selection both passes of `applyColors` perform: holiday and
workday data take priority, then the today indicator, else no color (the Go
code repeats this if-chain verbatim in the numeral pass and the label
pass). -/
def chooseColor (info : HighlightInfo) : Option Str :=
  if info.hasHoliday then
    some (if info.isHoliday then holidayStart else workdayStart)
  else if info.isToday then some todayStart
  else none

/-- Go `strings.Contains`. -/
def isSubstr (pat : Str) : Str → Bool
  | [] => decide (pat = [])
  | c :: t => pat.isPrefixOf (c :: t) || isSubstr pat t

/-- Replace the first occurrence of the label pattern `(\\s|│)(label)(\\s+|│)`
in a line, wrapping the label in color markers; `none` when the pattern
does not occur (`lunarRe.FindStringIndex` finding nothing). -/
def replaceFirstLabel (label cs ce : Str) : Str → Option Str
  | [] => none
  | c :: t =>
    match matchDayAt false label (c :: t) with
    | some (g1, g3, rest) => some (g1 ++ cs ++ label ++ ce ++ g3 ++ rest)
    | none => (replaceFirstLabel label cs ce t).map (c :: ·)

/-- The inner loop of the label pass: find the first line containing the
colored numeral `pat` whose following line has a label match, replace
there, and stop; keep scanning otherwise. -/
def lunarScan (pat label cs ce : Str) : List Str → Option (List Str)
  | [] => none
  | [_] => none
  | l1 :: l2 :: rest =>
    if isSubstr pat l1 then
      match replaceFirstLabel label cs ce l2 with
      | some l2' => some (l1 :: l2' :: rest)
      | none => (lunarScan pat label cs ce (l2 :: rest)).map (l1 :: ·)
    else (lunarScan pat label cs ce (l2 :: rest)).map (l1 :: ·)

/-- Descending insertion of a key. -/
def insertDesc (x : Nat) : List Nat → List Nat
  | [] => [x]
  | y :: ys => if y ≤ x then x :: y :: ys else y :: insertDesc x ys

/-- The descending sort `applyColors` performs on the highlighted day
numbers (the Go code bubble-sorts the map's key slice; the embedding
insertion-sorts the key list, producing the same descending order). -/
def sortDesc (l : List Nat) : List Nat := l.foldr insertDesc []

/-- One step of the numeral (first) pass of `applyColors`: pick the day's
color by priority and rewrite every bounded occurrence of its numeral. -/
def firstPassStep (highlights : List (Nat × HighlightInfo)) (acc : Str)
    (d : Nat) : Str :=
  match highlights.lookup d with
  | none => acc
  | some info =>
    match chooseColor info with
    | none => acc
    | some cs => applyDayColor (decide (d < 10)) (natToStr d) cs colorEnd acc

/-- The numeral (first) pass of `applyColors` over the day numbers in
descending order. -/
def firstPass (highlights : List (Nat × HighlightInfo)) (dayNums : List Nat)
    (out : Str) : Str :=
  dayNums.foldl (firstPassStep highlights) out

/-- One step of the label (second) pass of `applyColors`: skip days whose
(day, label) pair was already colored, otherwise look for the line holding
the colored numeral and wrap the first label occurrence on the next line. -/
def secondPassStep (highlights : List (Nat × HighlightInfo))
    (st : List Str × List (Nat × Str)) (d : Nat) : List Str × List (Nat × Str) :=
  match highlights.lookup d with
  | none => st
  | some info =>
    match chooseColor info with
    | none => st
    | some cs =>
      if (d, info.lunarLabel) ∈ st.2 then st
      else
        match lunarScan (cs ++ natToStr d ++ colorEnd) info.lunarLabel cs colorEnd st.1 with
        | some lines2 => (lines2, (d, info.lunarLabel) :: st.2)
        | none => st

/-- Go `applyColors` of `render.go`: identity in no-color mode; otherwise
wrap every highlighted numeral in its priority color (descending day order,
so two-digit numerals are matched before the single digits they contain),
then wrap each day's secondary label on the line below its colored
numeral. `highlights` is the day-keyed map, represented as an association
list. -/
def applyColors (noColor : Bool) (output : Str)
    (highlights : List (Nat × HighlightInfo)) : Str :=
  if noColor then output
  else
    let dayNums := sortDesc (highlights.map Prod.fst)
    let out1 := firstPass highlights dayNums output
    let lines := splitNL out1
    let lines2 := (dayNums.foldl (secondPassStep highlights) (lines, [])).1
    joinNL lines2

/-- Go `applyDimColor` of `render.go`: a stub that performs no dimming. -/
def applyDimColor (output : Str) (_view : MonthView) : Str := output

/-! ## Highlight collection of `buildMonthBlock` -/

/-- The label stored in a highlight record: the day's secondary label, or
two blanks when it is empty. -/
def dayLunarLabel (day : Day) : Str :=
  if day.secondaryLabel = [] then [' ', ' '] else day.secondaryLabel

/-- The per-day highlight decision of `buildMonthBlock`: out-of-month days
are skipped; days with holiday data are recorded with `hasHoliday` set
(whether or not they are today); otherwise only today is recorded. -/
def dayHighlight (day : Day) : Option HighlightInfo :=
  if day.inMonth = false then none
  else
    match day.holidayInfo with
    | some h =>
      some ⟨day.date.day.toNat, dayLunarLabel day, true, h.isHoliday, day.isToday⟩
    | none =>
      if day.isToday then
        some ⟨day.date.day.toNat, dayLunarLabel day, false, false, day.isToday⟩
      else none

/-- Assignment into the day-keyed highlight map. -/
def insertHighlight (k : Nat) (v : HighlightInfo) :
    List (Nat × HighlightInfo) → List (Nat × HighlightInfo)
  | [] => [(k, v)]
  | (k', v') :: rest =>
    if k' = k then (k, v) :: rest else (k', v') :: insertHighlight k v rest

/-- The highlight map `buildMonthBlock` collects over all weeks. -/
def collectHighlights (view : MonthView) : List (Nat × HighlightInfo) :=
  (view.weeks.flatten).foldl (fun m day =>
    match dayHighlight day with
    | some info => insertHighlight day.date.day.toNat info m
    | none => m) []

/-- Count of non-overlapping occurrences of a pattern (fuel-indexed). -/
def occCountAux (pat : Str) : Nat → Str → Nat
  | 0, _ => 0
  | _ + 1, [] => 0
  | fuel + 1, c :: t =>
    if pat.isPrefixOf (c :: t) then 1 + occCountAux pat fuel ((c :: t).drop pat.length)
    else occCountAux pat fuel t

def occCount (pat s : Str) : Nat := occCountAux pat s.length s

/-- Claim C1: on the numeral-row segment " 1  11 " with a single directive
for day 1, the full annotator produces exactly one colored span, wrapping
the isolated "1"; neither digit of "11" is touched. And in general the
single-digit matcher only fires on a numeral bounded by whitespace on the
left and whitespace or the column separator on the right, so a digit that
is part of a two-digit numeral (hence adjacent to another digit) is never
wrapped. -/
theorem claim_c1_no_partial_match :
    (applyColors false [' ', '1', ' ', ' ', '1', '1', ' ']
        [(1, ⟨1, [' ', ' '], false, false, true⟩)] =
      [' '] ++ todayStart ++ ['1'] ++ colorEnd ++ [' ', ' ', '1', '1', ' '] ∧
      occCount colorEnd (applyColors false [' ', '1', ' ', ' ', '1', '1', ' ']
        [(1, ⟨1, [' ', ' '], false, false, true⟩)]) = 1) ∧
    (∀ (d : Nat) (s g1 g2 rest : Str), d < 10 →
      matchDayAt true (natToStr d) s = some (g1, g2, rest) →
      s = g1 ++ natToStr d ++ g2 ++ rest ∧
      g1 ≠ [] ∧ (∀ c ∈ g1, isGoSpace c = true) ∧
      (g2 = [sepChar] ∨ ∀ c ∈ g2, isGoSpace c = true)) := by
  constructor
  · exact ⟨by decide, by decide⟩
  · intro d s g1 g2 rest _ h
    obtain ⟨h1, h2, h3, h4, h5⟩ := matchDayAt_sound h
    exact ⟨h1, h2, h4 rfl, h5⟩

/-- Witness instantiating the bounded-match half of claim C1 at the
concrete match of day 1 inside " 1  11 ". -/
theorem claim_c1_no_partial_match_witness :
    (1 : Nat) < 10 ∧
    matchDayAt true (natToStr 1) [' ', '1', ' ', ' ', '1', '1', ' '] =
      some ([' '], [' ', ' '], ['1', '1', ' ']) ∧
    ([' ', '1', ' ', ' ', '1', '1', ' '] : Str) =
      [' '] ++ natToStr 1 ++ [' ', ' '] ++ ['1', '1', ' '] ∧
    ([' '] : Str) ≠ [] ∧ (∀ c ∈ ([' '] : Str), isGoSpace c = true) ∧
    (([' ', ' '] : Str) = [sepChar] ∨ ∀ c ∈ ([' ', ' '] : Str), isGoSpace c = true) :=
  ⟨by decide, by decide,
    (claim_c1_no_partial_match.2 1 [' ', '1', ' ', ' ', '1', '1', ' ']
      [' '] [' ', ' '] ['1', '1', ' '] (by decide) (by decide))⟩

/-- Claim C2: a day that is simultaneously today and carries holiday or
workday data is highlighted with the holiday (blue) or workday (orange)
color, never the today (green) color: `buildMonthBlock` stores a single
status per day with `hasHoliday` set, and the color chain of both passes of
`applyColors` tests holiday data before the today flag. -/
theorem claim_c2_holiday_overrides_today (day : Day) (h : HolidayInfo)
    (hin : day.inMonth = true) (_htoday : day.isToday = true)
    (hhol : day.holidayInfo = some h) :
    ∃ info, dayHighlight day = some info ∧ info.hasHoliday = true ∧
      chooseColor info = some (if h.isHoliday then holidayStart else workdayStart) ∧
      chooseColor info ≠ some todayStart ∧
      todayStart ≠ holidayStart ∧ todayStart ≠ workdayStart := by
  refine ⟨⟨day.date.day.toNat, dayLunarLabel day, true, h.isHoliday, day.isToday⟩,
    ?_, rfl, ?_, ?_, by decide, by decide⟩
  · unfold dayHighlight
    rw [if_neg (by rw [hin]; simp), hhol]
  · simp [chooseColor]
  · cases hh : h.isHoliday <;> simp [chooseColor] <;> decide

/-- Witness for claim C2 at a concrete today-and-holiday day. -/
theorem claim_c2_holiday_overrides_today_witness :
    ∃ info,
      dayHighlight ⟨⟨2025, 10, 1⟩, true, ['初', '一'], ['十', '月'], [], true, true,
        some ⟨true, ['国', '庆']⟩⟩ = some info ∧
      info.hasHoliday = true ∧
      chooseColor info =
        some (if (⟨true, ['国', '庆']⟩ : HolidayInfo).isHoliday
          then holidayStart else workdayStart) ∧
      chooseColor info ≠ some todayStart ∧
      todayStart ≠ holidayStart ∧ todayStart ≠ workdayStart :=
  claim_c2_holiday_overrides_today
    ⟨⟨2025, 10, 1⟩, true, ['初', '一'], ['十', '月'], [], true, true,
      some ⟨true, ['国', '庆']⟩⟩
    ⟨true, ['国', '庆']⟩ rfl rfl rfl

/-! ## Height preservation of the annotator (claim C10) -/

/-- Number of line breaks in a string. -/
def nlCount (s : Str) : Nat := s.count '\n'

theorem nlCount_append (a b : Str) : nlCount (a ++ b) = nlCount a + nlCount b :=
  List.count_append '\n' a b

theorem chooseColor_no_newline {info : HighlightInfo} {cs : Str}
    (h : chooseColor info = some cs) : nlCount cs = 0 := by
  unfold chooseColor at h
  by_cases h1 : info.hasHoliday = true
  · rw [if_pos h1] at h
    simp only [Option.some.injEq] at h
    subst h
    by_cases h2 : info.isHoliday = true
    · rw [if_pos h2]; decide
    · rw [if_neg h2]; decide
  · rw [if_neg h1] at h
    by_cases h2 : info.isToday = true
    · rw [if_pos h2] at h
      simp only [Option.some.injEq] at h
      subst h; decide
    · rw [if_neg h2] at h; simp at h

theorem nlCount_colorEnd : nlCount colorEnd = 0 := by decide

theorem applyDayColorAux_nl {cs ce : Str} (hcs : nlCount cs = 0)
    (hce : nlCount ce = 0) (single : Bool) (dayStr : Str) :
    ∀ (fuel : Nat) (s : Str),
      nlCount (applyDayColorAux single dayStr cs ce fuel s) = nlCount s := by
  intro fuel
  induction fuel with
  | zero => intro s; rfl
  | succ f ih =>
    intro s
    cases s with
    | nil => rfl
    | cons c t =>
      simp only [applyDayColorAux]
      cases hm : matchDayAt single dayStr (c :: t) with
      | none =>
        simp only [nlCount, List.count_cons] at *
        rw [ih t]
      | some g =>
        obtain ⟨g1, g2, rest⟩ := g
        obtain ⟨hs, -, -, -, -⟩ := matchDayAt_sound hm
        rw [hs]
        simp only [nlCount, List.count_append] at *
        rw [ih rest]
        omega

theorem applyDayColor_nl {cs ce : Str} (hcs : nlCount cs = 0)
    (hce : nlCount ce = 0) (single : Bool) (dayStr s : Str) :
    nlCount (applyDayColor single dayStr cs ce s) = nlCount s :=
  applyDayColorAux_nl hcs hce single dayStr s.length s

theorem firstPassStep_nl (highlights : List (Nat × HighlightInfo))
    (acc : Str) (d : Nat) :
    nlCount (firstPassStep highlights acc d) = nlCount acc := by
  unfold firstPassStep
  split
  · rfl
  · split
    · rfl
    · rename_i info _ cs hc
      exact applyDayColor_nl (chooseColor_no_newline hc) nlCount_colorEnd _ _ _

theorem firstPass_nl (highlights : List (Nat × HighlightInfo)) :
    ∀ (dayNums : List Nat) (out : Str),
      nlCount (firstPass highlights dayNums out) = nlCount out := by
  intro dayNums
  induction dayNums with
  | nil => intro out; rfl
  | cons d ds ih =>
    intro out
    simp only [firstPass, List.foldl_cons]
    have := ih (firstPassStep highlights out d)
    simp only [firstPass] at this
    rw [this, firstPassStep_nl]

theorem replaceFirstLabel_nl {label cs ce : Str} (hcs : nlCount cs = 0)
    (hce : nlCount ce = 0) :
    ∀ {l l' : Str}, replaceFirstLabel label cs ce l = some l' →
      nlCount l' = nlCount l := by
  intro l
  induction l with
  | nil => intro l' h; simp [replaceFirstLabel] at h
  | cons c t ih =>
    intro l' h
    simp only [replaceFirstLabel] at h
    cases hm : matchDayAt false label (c :: t) with
    | some g =>
      obtain ⟨g1, g3, rest⟩ := g
      rw [hm] at h
      simp only [Option.some.injEq] at h
      subst h
      obtain ⟨hs, -, -, -, -⟩ := matchDayAt_sound hm
      rw [hs]
      simp only [nlCount, List.count_append] at hcs hce ⊢
      omega
    | none =>
      rw [hm] at h
      cases hrec : replaceFirstLabel label cs ce t with
      | none => rw [hrec] at h; simp at h
      | some t' =>
        rw [hrec] at h
        simp only [Option.map_some', Option.some.injEq] at h
        subst h
        simp only [nlCount, List.count_cons]
        rw [show (t' : Str).count '\n' = t.count '\n' from ih hrec]

theorem lunarScan_nl {pat label cs ce : Str} (hcs : nlCount cs = 0)
    (hce : nlCount ce = 0) :
    ∀ {lines lines' : List Str}, lunarScan pat label cs ce lines = some lines' →
      lines'.map nlCount = lines.map nlCount := by
  intro lines
  generalize hk : lines.length = k
  induction k using Nat.strong_induction_on generalizing lines with
  | _ k ih =>
    intro lines' h
    match lines with
    | [] => simp [lunarScan] at h
    | [l] => simp [lunarScan] at h
    | l1 :: l2 :: rest =>
      simp only [lunarScan] at h
      by_cases hsub : isSubstr pat l1 = true
      · rw [if_pos hsub] at h
        cases hrep : replaceFirstLabel label cs ce l2 with
        | some l2' =>
          rw [hrep] at h
          simp only [Option.some.injEq] at h
          subst h
          simp only [List.map_cons]
          rw [replaceFirstLabel_nl hcs hce hrep]
        | none =>
          rw [hrep] at h
          cases hrec : lunarScan pat label cs ce (l2 :: rest) with
          | none => rw [hrec] at h; simp at h
          | some ls' =>
            rw [hrec] at h
            simp only [Option.map_some', Option.some.injEq] at h
            subst h
            simp only [List.map_cons]
            have := ih (l2 :: rest).length (by simp only [List.length_cons] at hk ⊢; omega)
              rfl hrec
            rw [this]
            simp
      · rw [if_neg hsub] at h
        cases hrec : lunarScan pat label cs ce (l2 :: rest) with
        | none => rw [hrec] at h; simp at h
        | some ls' =>
          rw [hrec] at h
          simp only [Option.map_some', Option.some.injEq] at h
          subst h
          simp only [List.map_cons]
          have := ih (l2 :: rest).length (by simp only [List.length_cons] at hk ⊢; omega)
            rfl hrec
          rw [this]
          simp

theorem secondPassStep_nl (highlights : List (Nat × HighlightInfo))
    (st : List Str × List (Nat × Str)) (d : Nat) :
    ((secondPassStep highlights st d).1).map nlCount = st.1.map nlCount := by
  unfold secondPassStep
  split
  · rfl
  · split
    · rfl
    · rename_i info _ cs hc
      split
      · rfl
      · split
        · rename_i lines2 hscan
          exact lunarScan_nl (chooseColor_no_newline hc) nlCount_colorEnd hscan
        · rfl

theorem secondPass_fold_nl (highlights : List (Nat × HighlightInfo)) :
    ∀ (dayNums : List Nat) (st : List Str × List (Nat × Str)),
      ((dayNums.foldl (secondPassStep highlights) st).1).map nlCount =
        st.1.map nlCount := by
  intro dayNums
  induction dayNums with
  | nil => intro st; rfl
  | cons d ds ih =>
    intro st
    simp only [List.foldl_cons]
    rw [ih (secondPassStep highlights st d), secondPassStep_nl]

theorem nlCount_joinNL :
    ∀ ls : List Str, ls ≠ [] →
      nlCount (joinNL ls) + 1 = (ls.map nlCount).sum + ls.length := by
  intro ls
  induction ls with
  | nil => intro h; exact absurd rfl h
  | cons l ls2 ih =>
    intro _
    cases ls2 with
    | nil => simp [joinNL, nlCount]
    | cons l2 rest =>
      have := ih (by simp)
      simp only [joinNL, List.map_cons, List.sum_cons, List.length_cons] at *
      rw [nlCount_append]
      have hcons : nlCount ('\n' :: joinNL (l2 :: rest)) =
          nlCount (joinNL (l2 :: rest)) + 1 := by
        simp [nlCount, List.count_cons]
      omega

/-- Claim C10: the annotator never adds, removes or merges lines — for
every input text, highlight set and color mode, `applyColors` preserves the
number of line breaks exactly: colors are injected within existing lines
only. -/
theorem claim_c10_height_preserved (noColor : Bool) (output : Str)
    (highlights : List (Nat × HighlightInfo)) :
    nlCount (applyColors noColor output highlights) = nlCount output := by
  cases noColor with
  | true => rfl
  | false =>
    unfold applyColors
    simp only [Bool.false_eq_true, if_false]
    have h1 : nlCount (firstPass highlights (sortDesc (highlights.map Prod.fst)) output) =
        nlCount output := firstPass_nl highlights _ output
    have h2 := secondPass_fold_nl highlights (sortDesc (highlights.map Prod.fst))
      (splitNL (firstPass highlights (sortDesc (highlights.map Prod.fst)) output), [])
    have hlen : ((sortDesc (highlights.map Prod.fst)).foldl
        (secondPassStep highlights)
        (splitNL (firstPass highlights (sortDesc (highlights.map Prod.fst)) output),
          [])).1.length =
        (splitNL (firstPass highlights (sortDesc (highlights.map Prod.fst)) output)).length := by
      have := congrArg List.length h2
      simpa using this
    have hne1 : ((sortDesc (highlights.map Prod.fst)).foldl
        (secondPassStep highlights)
        (splitNL (firstPass highlights (sortDesc (highlights.map Prod.fst)) output),
          [])).1 ≠ [] := by
      intro hnil
      rw [hnil] at hlen
      exact splitNL_ne_nil _ (List.length_eq_zero.mp hlen.symm)
    have hne2 : splitNL (firstPass highlights (sortDesc (highlights.map Prod.fst)) output) ≠ [] :=
      splitNL_ne_nil _
    have hj1 := nlCount_joinNL _ hne1
    have hj2 := nlCount_joinNL _ hne2
    rw [joinNL_splitNL] at hj2
    dsimp only at h2 hj1
    rw [congrArg List.sum h2, hlen] at hj1
    omega

/-! ## Block composition (`render.Layout`) and month blocks -/

/-- Go `render.MonthBlock`. -/
structure MonthBlock where
  lines : List Str
  width : Nat
  height : Nat
deriving Repr

/-- The line accumulation of `Layout`: each block's lines in order, one
blank line after every block except the last. -/
def layoutLines : List MonthBlock → List Str
  | [] => []
  | [b] => b.lines
  | b :: rest => b.lines ++ [[]] ++ layoutLines rest

/-- Go `render.Layout`: empty string for no blocks, else the accumulated
lines joined with line breaks. The width argument is ignored by the code. -/
def Layout (blocks : List MonthBlock) (_width : Int) : Str :=
  match blocks with
  | [] => []
  | _ => joinNL (layoutLines blocks)

theorem layoutLines_eq_intercalate (blocks : List MonthBlock) :
    layoutLines blocks = List.intercalate [[]] (blocks.map MonthBlock.lines) := by
  induction blocks with
  | nil => simp [layoutLines, List.intercalate, List.intersperse]
  | cons b rest ih =>
    cases rest with
    | nil => simp [layoutLines, List.intercalate, List.intersperse]
    | cons b2 r2 =>
      simp only [layoutLines, ih, List.map_cons]
      rw [show List.intercalate [[]] (b.lines :: b2.lines :: List.map MonthBlock.lines r2) =
        b.lines ++ [[]] ++ List.intercalate [[]] (b2.lines :: List.map MonthBlock.lines r2) from by
          simp [List.intercalate, List.intersperse]]

/-- Claim C9: the block composer returns the empty string on no blocks,
exactly one block's lines joined with line breaks (no blank line) on a
single block, and in general each block's lines in order with exactly one
inserted blank line between consecutive blocks and nowhere else (the
intercalate form). -/
theorem claim_c9_compose (w : Int) :
    Layout [] w = [] ∧
    (∀ b : MonthBlock, Layout [b] w = joinNL b.lines) ∧
    (∀ blocks : List MonthBlock,
      Layout blocks w =
        joinNL (List.intercalate [[]] (blocks.map MonthBlock.lines))) := by
  refine ⟨rfl, fun b => rfl, fun blocks => ?_⟩
  cases blocks with
  | nil => simp [Layout, List.intercalate, List.intersperse, joinNL]
  | cons b rest =>
    show joinNL (layoutLines (b :: rest)) = _
    rw [layoutLines_eq_intercalate]

/-! ## Grid sizing (`determineColumnWidth`, cells) -/

/-- Padding on each side of a table cell. -/
def cellPadding : Nat := 1

/-- Go `fmt.Sprintf("%2d", n)`: the decimal numeral left-padded with spaces
to at least two characters. -/
def sprintf2d (n : Nat) : Str :=
  List.replicate (2 - (natToStr n).length) ' ' ++ natToStr n

/-- Go `renderGregorianCell`: blank outside the month, otherwise the
day-of-month right-justified in two characters. -/
def renderGregorianCell (day : Day) : Str :=
  if day.inMonth = false then []
  else sprintf2d day.date.day.toNat

/-- Go `renderLunarCell`: blank outside the month, otherwise the secondary
label, two blanks when it is empty. -/
def renderLunarCell (day : Day) : Str :=
  if day.inMonth = false then []
  else dayLunarLabel day

/-- Go `determineColumnWidth`: fold of the cell widths over all weeks,
starting from 4. -/
def determineColumnWidth (view : MonthView) : Nat :=
  view.weeks.foldl (fun w week =>
    week.foldl (fun w day =>
      max (max w (StringWidth (renderGregorianCell day)))
        (StringWidth (renderLunarCell day))) w) 4

/-- The column width `buildMonthBlock` gives every table column. -/
def monthColumnWidth (view : MonthView) : Nat :=
  determineColumnWidth view + cellPadding * 2

/-- Maximum cell width as the claim words it: the maximum over all cells of
the numeral and label widths. -/
def cellMaxSpec (view : MonthView) : Nat :=
  ((view.weeks.flatten).map (fun day =>
    max (StringWidth (renderGregorianCell day))
      (StringWidth (renderLunarCell day)))).foldr max 0

theorem foldl_max_eq_foldr {α : Type} (f : α → Nat) :
    ∀ (l : List α) (a : Nat),
      l.foldl (fun w x => max w (f x)) a = max a ((l.map f).foldr max 0) := by
  intro l
  induction l with
  | nil => intro a; simp
  | cons x xs ih =>
    intro a
    simp only [List.foldl_cons, List.map_cons, List.foldr_cons]
    rw [ih, Nat.max_assoc]

theorem foldl_flatten_eq {α : Type} (F : Nat → α → Nat) :
    ∀ (L : List (List α)) (a : Nat),
      L.foldl (fun w week => week.foldl F w) a = (L.flatten).foldl F a := by
  intro L
  induction L with
  | nil => intro a; rfl
  | cons week L2 ih =>
    intro a
    simp only [List.foldl_cons, List.flatten_cons, List.foldl_append]
    exact ih (week.foldl F a)

/-- Claim C7: every grid column is sized to max(4, maximum cell width) + 2
(one padding column each side); an out-of-month numeral cell is blank, an
in-month numeral is the day-of-month right-justified in 2 characters, and
an empty secondary label renders as two blanks. -/
theorem claim_c7_column_width (view : MonthView) :
    monthColumnWidth view = max 4 (cellMaxSpec view) + 2 ∧
    (∀ day : Day, day.inMonth = false → renderGregorianCell day = []) ∧
    (∀ day : Day, day.inMonth = true →
      renderGregorianCell day =
        List.replicate (2 - (natToStr day.date.day.toNat).length) ' ' ++
          natToStr day.date.day.toNat) ∧
    (∀ day : Day, day.inMonth = true → day.secondaryLabel = [] →
      renderLunarCell day = [' ', ' ']) := by
  refine ⟨?_, ?_, ?_, ?_⟩
  · unfold monthColumnWidth determineColumnWidth cellMaxSpec cellPadding
    simp only [Nat.max_assoc]
    rw [foldl_flatten_eq, foldl_max_eq_foldr
      (fun day => max (StringWidth (renderGregorianCell day))
        (StringWidth (renderLunarCell day)))]
  · intro day h
    unfold renderGregorianCell
    rw [if_pos h]
  · intro day h
    unfold renderGregorianCell
    rw [if_neg (by rw [h]; simp)]
    rfl
  · intro day h1 h2
    unfold renderLunarCell
    rw [if_neg (by rw [h1]; simp)]
    unfold dayLunarLabel
    rw [if_pos h2]

/-- Witness for claim C7 at a one-week view holding an in-month day 5 with
an empty label and an out-of-month day. -/
theorem claim_c7_column_width_witness :
    monthColumnWidth ⟨2025, 11,
        natToStr 2025 ++ [' ', '年', ' '] ++ natToStr 11 ++ [' ', '月'],
        [[⟨⟨2025, 11, 5⟩, true, [], [], [], false, true, none⟩,
          ⟨⟨2025, 10, 26⟩, false, [], [], [], false, true, none⟩]]⟩ =
      max 4 (cellMaxSpec ⟨2025, 11,
        natToStr 2025 ++ [' ', '年', ' '] ++ natToStr 11 ++ [' ', '月'],
        [[⟨⟨2025, 11, 5⟩, true, [], [], [], false, true, none⟩,
          ⟨⟨2025, 10, 26⟩, false, [], [], [], false, true, none⟩]]⟩) + 2 ∧
    renderGregorianCell ⟨⟨2025, 10, 26⟩, false, [], [], [], false, true, none⟩ = [] ∧
    renderGregorianCell ⟨⟨2025, 11, 5⟩, true, [], [], [], false, true, none⟩ =
      List.replicate (2 - (natToStr (5 : Int).toNat).length) ' ' ++
        natToStr (5 : Int).toNat ∧
    renderLunarCell ⟨⟨2025, 11, 5⟩, true, [], [], [], false, true, none⟩ = [' ', ' '] :=
  ⟨(claim_c7_column_width _).1,
   (claim_c7_column_width ⟨2025, 11, [], []⟩).2.1
     ⟨⟨2025, 10, 26⟩, false, [], [], [], false, true, none⟩ rfl,
   (claim_c7_column_width ⟨2025, 11, [], []⟩).2.2.1
     ⟨⟨2025, 11, 5⟩, true, [], [], [], false, true, none⟩ rfl,
   (claim_c7_column_width ⟨2025, 11, [], []⟩).2.2.2
     ⟨⟨2025, 11, 5⟩, true, [], [], [], false, true, none⟩ rfl (by decide)⟩

/-! ## The date service (`calendar.Service.Month`)

`Service.Month` validates the requested year and month before any grid is
built, then lays the month out into Sunday-first weeks.  `time.Time` values
are embedded as `GDate` triples with explicit Gregorian day arithmetic; the
external lunar library (`chinese-calendar-golang`) and the holiday lookup
are parameters, matching the collaborator interfaces of the spec (§6). -/

/-- Supported year range enforced by the upstream library. -/
def MinSupportedYear : Int := 1900

def MaxSupportedYear : Int := 3000

/-- The two validation errors of the service. -/
inductive CalErr where
  | yearOutOfRange
  | invalidMonth
deriving DecidableEq, Repr

/-- The external lunar/solar conversion library, §6 of the spec: pure
functions from a Gregorian date to the lunar day label, the lunar month
label, and the solar-term label (empty when no solar term falls on the
date). -/
structure LunarLib where
  dayAlias : GDate → Str
  monthAlias : GDate → Str
  solarTermAlias : GDate → Str

/-- Gregorian leap year. -/
def isLeapYear (y : Int) : Bool := y % 4 = 0 && (y % 100 ≠ 0 || y % 400 = 0)

/-- Length of a Gregorian month, as Go's `time` package computes it. -/
def daysInMonth (y m : Int) : Int :=
  if m = 2 then (if isLeapYear y then 29 else 28)
  else if m = 4 ∨ m = 6 ∨ m = 9 ∨ m = 11 then 30
  else 31

/-- The following Gregorian day (`AddDate(0, 0, 1)`). -/
def addDay (d : GDate) : GDate :=
  if d.day < daysInMonth d.year d.month then ⟨d.year, d.month, d.day + 1⟩
  else if d.month < 12 then ⟨d.year, d.month + 1, 1⟩
  else ⟨d.year + 1, 1, 1⟩

/-- The preceding Gregorian day. -/
def subDay (d : GDate) : GDate :=
  if 1 < d.day then ⟨d.year, d.month, d.day - 1⟩
  else if 1 < d.month then ⟨d.year, d.month - 1, daysInMonth d.year (d.month - 1)⟩
  else ⟨d.year - 1, 12, 31⟩

def addDays : Nat → GDate → GDate
  | 0, d => d
  | n + 1, d => addDays n (addDay d)

def subDays : Nat → GDate → GDate
  | 0, d => d
  | n + 1, d => subDays n (subDay d)

/-- Days of the year strictly before month `m`. -/
def daysBeforeMonth (y m : Int) : Int :=
  (List.range (m - 1).toNat).foldl (fun acc i => acc + daysInMonth y (i + 1)) 0

/-- Proleptic Gregorian day number (day 1 = January 1 of year 1). -/
def rataDie (d : GDate) : Int :=
  365 * (d.year - 1) + (d.year - 1) / 4 - (d.year - 1) / 100 + (d.year - 1) / 400 +
    daysBeforeMonth d.year d.month + d.day

/-- Weekday with Sunday = 0, matching `time.Weekday`. -/
def weekdayOf (d : GDate) : Int := rataDie d % 7

/-- Go `sameDay`. -/
def sameDay (a b : GDate) : Bool :=
  a.year == b.year && a.month == b.month && a.day == b.day

/-- Strict date order (Go `time.Time.After` on day-granular values). -/
def dlt (a b : GDate) : Bool :=
  a.year < b.year ||
    (a.year == b.year &&
      (a.month < b.month || (a.month == b.month && a.day < b.day)))

/-- Date order with equality (Go `Equal(...) || After(...)` reversed). -/
def dle (a b : GDate) : Bool := dlt a b || decide (a = b)

/-- Go `Service.buildDay`: days outside the supported year range degrade to
bare cells with no lunar data; otherwise the external library fills the
lunar and solar-term labels and the optional holiday lookup attaches
holiday data. The in-month test compares the month number only, as the Go
code does. -/
def buildDay (lib : LunarLib) (holidayLookup : Option (GDate → Option HolidayInfo))
    (today cursor : GDate) (currentMonth : Int) : Day :=
  if cursor.year < MinSupportedYear ∨ cursor.year > MaxSupportedYear then
    { date := cursor, inMonth := cursor.month == currentMonth,
      lunarDayAlias := [], lunarMonthAlias := [], solarTerm := [],
      isToday := sameDay cursor today, hasLunarData := false,
      holidayInfo := none }
  else
    { date := cursor, inMonth := cursor.month == currentMonth,
      lunarDayAlias := lib.dayAlias cursor,
      lunarMonthAlias := lib.monthAlias cursor,
      solarTerm := lib.solarTermAlias cursor,
      isToday := sameDay cursor today, hasLunarData := true,
      holidayInfo :=
        match holidayLookup with
        | none => none
        | some f => f cursor }

/-- Seven consecutive days from the cursor, and the cursor after them. -/
def buildWeekAux (lib : LunarLib) (holidayLookup : Option (GDate → Option HolidayInfo))
    (today : GDate) (currentMonth : Int) : Nat → GDate → List Day × GDate
  | 0, cursor => ([], cursor)
  | n + 1, cursor =>
    let d := buildDay lib holidayLookup today cursor currentMonth
    let p := buildWeekAux lib holidayLookup today currentMonth n (addDay cursor)
    (d :: p.1, p.2)

def buildWeek (lib : LunarLib) (holidayLookup : Option (GDate → Option HolidayInfo))
    (today : GDate) (currentMonth : Int) (cursor : GDate) : List Day × GDate :=
  buildWeekAux lib holidayLookup today currentMonth 7 cursor

/-- The week loop of `Service.Month`: build weeks until the cursor has
passed the end of the month on a Sunday, with the code's safety break
(six weeks collected and the cursor more than a week past the end).  The
loop advances seven days per iteration and exits within seven iterations,
so the fuel of 60 used below is never exhausted. -/
def weeksLoop (lib : LunarLib) (holidayLookup : Option (GDate → Option HolidayInfo))
    (today : GDate) (currentMonth : Int) (endD : GDate) :
    Nat → GDate → List (List Day) → List (List Day)
  | 0, _, acc => acc
  | fuel + 1, cursor, acc =>
    let p := buildWeek lib holidayLookup today currentMonth cursor
    let acc2 := acc ++ [p.1]
    if dle endD p.2 && (weekdayOf p.2 == 0) then acc2
    else if decide (6 ≤ acc2.length) && dlt (addDays 7 endD) p.2 then acc2
    else weeksLoop lib holidayLookup today currentMonth endD fuel p.2 acc2

/-- Go `Service.Month`: reject years outside 1900..3000 with
`ErrYearOutOfRange` and months outside 1..12 with `ErrInvalidMonth`,
both before any grid is built; otherwise lay out the weeks starting from
the Sunday on or before the first of the month. -/
def serviceMonth (lib : LunarLib)
    (holidayLookup : Option (GDate → Option HolidayInfo))
    (today : GDate) (year month : Int) : Except CalErr MonthView :=
  if year < MinSupportedYear ∨ year > MaxSupportedYear then
    .error CalErr.yearOutOfRange
  else if month < 1 ∨ month > 12 then
    .error CalErr.invalidMonth
  else
    let firstDay : GDate := ⟨year, month, 1⟩
    let start := subDays (weekdayOf firstDay).toNat firstDay
    let endD : GDate := if month = 12 then ⟨year + 1, 1, 1⟩ else ⟨year, month + 1, 1⟩
    let weeks := weeksLoop lib holidayLookup today month endD 60 start []
    .ok ⟨year, month,
      natToStr year.toNat ++ (' ' :: '年' :: [' ']) ++ natToStr month.toNat ++
        (' ' :: ['月']), weeks⟩

/-- A trivial inhabitant of the external lunar library interface, used only
to instantiate the service at a concrete input. -/
def emptyLunarLib : LunarLib := ⟨fun _ => [], fun _ => [], fun _ => []⟩

/-- Claim C8: for any collaborators and clock, the date service returns the
distinct error ErrYearOutOfRange whenever the year is below 1900 or above
3000 — before any grid is built, whatever the month — and returns a month
view with no error for every year in 1900..3000 and month in 1..12. -/
theorem claim_c8_year_range (lib : LunarLib)
    (holidayLookup : Option (GDate → Option HolidayInfo)) (today : GDate)
    (y m : Int) :
    ((y < MinSupportedYear ∨ y > MaxSupportedYear) →
      serviceMonth lib holidayLookup today y m = .error CalErr.yearOutOfRange) ∧
    (MinSupportedYear ≤ y → y ≤ MaxSupportedYear → 1 ≤ m → m ≤ 12 →
      ∃ v, serviceMonth lib holidayLookup today y m = .ok v) := by
  constructor
  · intro h
    unfold serviceMonth
    rw [if_pos h]
  · intro h1 h2 h3 h4
    cases hres : serviceMonth lib holidayLookup today y m with
    | ok v => exact ⟨v, rfl⟩
    | error e =>
      exfalso
      unfold serviceMonth at hres
      rw [if_neg (by unfold MinSupportedYear MaxSupportedYear at *; omega),
        if_neg (by omega)] at hres
      simp at hres

/-- Witness for claim C8: the year 1899 is rejected (even with an invalid
month), and November 2025 is served without error. -/
theorem claim_c8_year_range_witness :
    serviceMonth emptyLunarLib none ⟨2025, 10, 11⟩ 1899 99 =
      .error CalErr.yearOutOfRange ∧
    ∃ v, serviceMonth emptyLunarLib none ⟨2025, 10, 11⟩ 2025 11 = .ok v :=
  ⟨(claim_c8_year_range emptyLunarLib none ⟨2025, 10, 11⟩ 1899 99).1
      (Or.inl (by decide)),
   (claim_c8_year_range emptyLunarLib none ⟨2025, 10, 11⟩ 2025 11).2
      (by decide) (by decide) (by decide) (by decide)⟩

end Lucal
